import Mathlib

/-!
Verification of the opportunity-detection engine and run supervisor of the
crypto-arbitrage-framework repository.

The Lean definitions below are a shallow embedding of the Python source:

* `PathOptimizer.*`   embeds `src/crypto/path_optimizer.py`
* `Utils.*`           embeds `src/crypto/utils.py`
* `ArbitrageManager.*` embeds `src/arbitrage_web_app/arbitrage_manager.py`

Machine floats of the source are modelled by real numbers; the IEEE value
`-inf` produced by `np.log` on a non-positive argument (and forced by
`final_transit_matrix[~np.isfinite(...)] = -np.inf`) is modelled by the
bottom element of `EReal`.
-/

namespace PathOptimizer

/-- One feasible edge of the opportunity graph, carrying the data used by
`PathOptimizer.update_objectives`: its entry of the conversion-rate matrix
(`transit_price_matrix`), of the commission matrix and of the liquidity
(volume) matrix. -/
structure Edge where
  rate : ℝ
  fee : ℝ
  vol : ℝ

/-- The per-edge objective coefficient computed by
`PathOptimizer.update_objectives` (path_optimizer.py lines 409-417):
`np.log(rate * (1 - fee) * (vol >= min_trading_limit))`, with every
non-finite entry (log of zero or of a negative number) forced to `-inf`. -/
noncomputable def edgeWeight (minTradingLimit : ℝ) (e : Edge) : EReal :=
  let x : ℝ := e.rate * (1 - e.fee) * (if minTradingLimit ≤ e.vol then (1 : ℝ) else 0)
  if 0 < x then ((Real.log x : ℝ) : EReal) else ⊥

/-- The maximised objective of `update_objectives` restricted to a set of
selected edges (the edges whose binary variable is 1): the sum of the
per-edge coefficients. -/
noncomputable def objectiveSum (minTradingLimit : ℝ) (es : List Edge) : EReal :=
  (es.map (edgeWeight minTradingLimit)).sum

/-- The profit-factor recovery of `PathOptimizer.find_arbitrage`
(path_optimizer.py line 139): `self.obj = np.exp(ms.objective_value) - 1`. -/
noncomputable def profitFactor (objective : ℝ) : ℝ :=
  Real.exp objective - 1

lemma list_sum_eq_bot_of_mem (l : List EReal) (h : ⊥ ∈ l) : l.sum = ⊥ := by
  induction l with
  | nil => cases h
  | cons x xs ih =>
    rcases List.mem_cons.mp h with h | h
    · rw [List.sum_cons, ← h, EReal.bot_add]
    · rw [List.sum_cons, ih h, EReal.add_bot]

lemma exp_sum_log (es : List Edge)
    (h : ∀ e ∈ es, 0 < e.rate * (1 - e.fee)) :
    Real.exp ((es.map fun e => Real.log (e.rate * (1 - e.fee))).sum)
      = (es.map fun e => e.rate * (1 - e.fee)).prod := by
  induction es with
  | nil => simp
  | cons e es ih =>
    have he : 0 < e.rate * (1 - e.fee) := h e (by simp)
    have hes : ∀ x ∈ es, 0 < x.rate * (1 - x.fee) := fun x hx => h x (by simp [hx])
    simp only [List.map_cons, List.sum_cons, List.prod_cons, Real.exp_add,
      Real.exp_log he, ih hes]

/-- C1.  For every selection of edges that all pass the liquidity floor and
have a positive after-fee rate, the summed log objective built by
`update_objectives` equals the (real) sum of the per-edge logs, and the
`exp(objective) - 1` recovery of `find_arbitrage` equals the multiplicative
chain `∏ rate_i * (1 - fee_i)` minus 1: the log-sum objective and the
exponential recovery are exact inverses of the product form. -/
theorem find_arbitrage_logsum_matches_product (limit : ℝ) (es : List Edge)
    (h : ∀ e ∈ es, 0 < e.rate * (1 - e.fee) ∧ limit ≤ e.vol) :
    objectiveSum limit es
        = (((es.map fun e => Real.log (e.rate * (1 - e.fee))).sum : ℝ) : EReal) ∧
    profitFactor ((es.map fun e => Real.log (e.rate * (1 - e.fee))).sum)
        = (es.map fun e => e.rate * (1 - e.fee)).prod - 1 := by
  constructor
  · induction es with
    | nil => simp [objectiveSum]
    | cons e es ih =>
      have he := h e (by simp)
      have hes : ∀ x ∈ es, 0 < x.rate * (1 - x.fee) ∧ limit ≤ x.vol :=
        fun x hx => h x (by simp [hx])
      have hw : edgeWeight limit e = ((Real.log (e.rate * (1 - e.fee)) : ℝ) : EReal) := by
        unfold edgeWeight
        simp only [if_pos he.2, mul_one, if_pos he.1]
      simp only [objectiveSum, List.map_cons, List.sum_cons] at ih ⊢
      rw [hw, ih hes, ← EReal.coe_add]
  · unfold profitFactor
    rw [exp_sum_log es (fun e he => (h e he).1)]

/-- C3.  Any selection of edges whose objective value is at least that of the
empty selection (in particular any bounded optimum returned by the solver,
since selecting no edge is always feasible with objective 0) contains no edge
whose liquidity-matrix entry is strictly below `min_trading_limit`: such an
edge has weight `-inf` and would drag the whole objective to `-inf`.
Consequently an edge below the liquidity floor never appears in the cycle
returned by `find_arbitrage`, whatever its rate and fee. -/
theorem liquidity_floor_never_selected (limit : ℝ) (sel : List Edge)
    (hopt : objectiveSum limit [] ≤ objectiveSum limit sel) :
    ∀ e ∈ sel, limit ≤ e.vol := by
  intro e he
  by_contra hv
  have hw : edgeWeight limit e = ⊥ := by
    unfold edgeWeight
    simp only [if_neg hv, mul_zero]
    simp
  have hmem : (⊥ : EReal) ∈ sel.map (edgeWeight limit) := by
    exact List.mem_map.mpr ⟨e, he, hw⟩
  have hbot : objectiveSum limit sel = ⊥ :=
    list_sum_eq_bot_of_mem _ hmem
  have hzero : objectiveSum limit [] = ((0 : ℝ) : EReal) := by
    simp [objectiveSum]
  rw [hbot, hzero] at hopt
  exact absurd hopt (not_le.mpr (EReal.bot_lt_coe 0))

/-- Concrete selection used to witness C1. -/
noncomputable def c1Edges : List Edge :=
  [⟨2, 0, 10⟩, ⟨3, 0, 10⟩, ⟨4, 1/2, 10⟩]

/-- Witness for C1 at a concrete 3-edge cycle. -/
theorem find_arbitrage_logsum_matches_product_witness :
    (∀ e ∈ c1Edges, 0 < e.rate * (1 - e.fee) ∧ (10 : ℝ) ≤ e.vol) ∧
    (objectiveSum 10 c1Edges
        = (((c1Edges.map fun e => Real.log (e.rate * (1 - e.fee))).sum : ℝ) : EReal) ∧
     profitFactor ((c1Edges.map fun e => Real.log (e.rate * (1 - e.fee))).sum)
        = (c1Edges.map fun e => e.rate * (1 - e.fee)).prod - 1) := by
  have h : ∀ e ∈ c1Edges, 0 < e.rate * (1 - e.fee) ∧ (10 : ℝ) ≤ e.vol := by
    intro e he
    fin_cases he <;> norm_num
  exact ⟨h, find_arbitrage_logsum_matches_product 10 c1Edges h⟩

/-- Concrete selection used to witness C3. -/
noncomputable def c3Edges : List Edge :=
  [⟨2, 0, 20⟩]

/-- Witness for C3: a selection at least as good as the empty one, whose
edges are then all certified to satisfy the liquidity floor. -/
theorem liquidity_floor_never_selected_witness :
    (objectiveSum 10 [] ≤ objectiveSum 10 c3Edges) ∧
    (∀ e ∈ c3Edges, (10 : ℝ) ≤ e.vol) := by
  have h : objectiveSum 10 [] ≤ objectiveSum 10 c3Edges := by
    have h1 : objectiveSum 10 ([] : List Edge) = ((0 : ℝ) : EReal) := by
      simp [objectiveSum]
    have h2 : objectiveSum 10 c3Edges = ((Real.log 2 : ℝ) : EReal) := by
      unfold objectiveSum c3Edges edgeWeight
      norm_num
    rw [h1, h2]
    exact EReal.coe_le_coe_iff.mpr (Real.log_nonneg (by norm_num))
  exact ⟨h, liquidity_floor_never_selected 10 c3Edges h⟩

variable {α : Type} [DecidableEq α]

/-- The `path_segments` dictionary of `PathOptimizer._sort_list`
(path_optimizer.py line 516): it maps the start node of each selected
segment to that segment; a Python dict comprehension keeps the last segment
with a given start, modelled by searching the reversed list. -/
def lookupSeg (l : List (α × α)) (s : α) : Option (α × α) :=
  l.reverse.find? (fun e => decide (e.1 = s))

/-- The path-ordering loop of `PathOptimizer._sort_list` (path_optimizer.py
lines 550-565).  `fuel` models the `for _ in range(len(tuple_list))` bound;
the loop appends the current segment unless it was already appended (then it
breaks), follows `path_segments` to the next segment, and breaks early once
the sorted path is the full closed cycle. -/
def sortLoop (l : List (α × α)) : ℕ → List (α × α) → (α × α) → List (α × α)
  | 0, acc, _ => acc
  | fuel + 1, acc, cur =>
    if cur ∈ acc then acc
    else
      match lookupSeg l cur.2 with
      | none => acc ++ [cur]
      | some next =>
        if (acc ++ [cur]).head? = some next ∧ (acc ++ [cur]).length = l.length then
          acc ++ [cur]
        else sortLoop l fuel (acc ++ [cur]) next

/-- The start-node choice of `PathOptimizer._sort_list` (path_optimizer.py
lines 519-539): prefer the first required currency that starts a segment,
else a segment start that is not any segment's end (the Python picks
`list(possible_true_starts)[0]` out of a set; set iteration order is
modelled by first-in-list order), else the first listed segment's start. -/
def chooseStart (required : List α) (l : List (α × α)) (e0 : α × α) : α :=
  match required.find? (fun c => (lookupSeg l c).isSome) with
  | some c => c
  | none =>
    match l.find? (fun e => decide (e.1 ∉ l.map Prod.snd)) with
    | some e => e.1
    | none => e0.1

/-- The guard `if start_node not in path_segments: return tuple_list` of
`PathOptimizer._sort_list` (path_optimizer.py lines 542-547), followed by
the ordering loop starting from the chosen start segment. -/
def sortListAux (l : List (α × α)) (start : Option (α × α)) : List (α × α) :=
  match start with
  | none => l
  | some c => sortLoop l l.length [] c

/-- `PathOptimizer._sort_list` (path_optimizer.py lines 507-574): orders the
selected segments into a head-to-tail walk, returning the segments unchanged
when the chosen start node starts no segment. -/
def sortList (required : List α) (l : List (α × α)) : List (α × α) :=
  match l with
  | [] => []
  | e0 :: rest =>
    sortListAux (e0 :: rest) (lookupSeg (e0 :: rest) (chooseStart required (e0 :: rest) e0))

/-- `PathOptimizer.have_opportunity` (path_optimizer.py lines 761-764):
`bool(self.path and len(self.path) > 0 and self.obj > 0)`. -/
def have_opportunity (path : List (α × α)) (obj : ℝ) : Prop :=
  path ≠ [] ∧ 0 < obj

/-- A closed walk: nonempty, consecutive segments linked head to tail, and
the last segment's end equal to the first segment's start. -/
def isClosedWalk (p : List (α × α)) : Prop :=
  p ≠ [] ∧ List.Chain' (fun a b => a.2 = b.1) p ∧
    p.getLast?.map Prod.snd = p.head?.map Prod.fst

lemma lookupSeg_eq_some {l : List (α × α)} {s : α} {c : α × α}
    (h : lookupSeg l s = some c) : c ∈ l ∧ c.1 = s := by
  unfold lookupSeg at h
  refine ⟨List.mem_reverse.mp (List.mem_of_find?_eq_some h), ?_⟩
  have := List.find?_some h
  simpa using this

lemma lookupSeg_isSome {l : List (α × α)} {s : α}
    (h : ∃ f ∈ l, f.1 = s) : (lookupSeg l s).isSome := by
  obtain ⟨f, hf, hfs⟩ := h
  unfold lookupSeg
  rw [List.find?_isSome]
  exact ⟨f, List.mem_reverse.mpr hf, by simpa using hfs⟩

/-- Loop invariant for `sortLoop`: the accumulator lies inside the selected
segments, forms a head-to-tail chain without repetition, the cursor extends
its last segment, and the fuel accounts for the remaining capacity. -/
def SortInv (l acc : List (α × α)) (cur : α × α) (fuel : ℕ) : Prop :=
  (∀ e ∈ acc, e ∈ l) ∧ cur ∈ l ∧
  List.Chain' (fun a b => a.2 = b.1) acc ∧
  (∀ x ∈ acc.getLast?, cur.1 = x.2) ∧
  acc.Nodup ∧ fuel + acc.length = l.length

/-- When the cursor revisits a segment already in the accumulator, that
segment can only be the accumulator's head: ends of selected segments are
pairwise distinct (at most one selected in-edge per node), so each chain
position has a unique predecessor. -/
lemma head_of_mem_closes {l acc : List (α × α)} {cur : α × α}
    (hinj : ∀ ⦃x⦄, x ∈ l → ∀ ⦃y⦄, y ∈ l → x.2 = y.2 → x = y)
    (hsub : ∀ e ∈ acc, e ∈ l)
    (hchain : List.Chain' (fun a b => a.2 = b.1) acc)
    (hlast : ∀ x ∈ acc.getLast?, cur.1 = x.2)
    (hnd : acc.Nodup) (hmem : cur ∈ acc) :
    acc.head? = some cur := by
  have hacc_ne : acc ≠ [] := List.ne_nil_of_mem hmem
  obtain ⟨⟨j, hj⟩, hget⟩ := List.mem_iff_get.mp hmem
  have hgl_mem : acc.getLast hacc_ne ∈ acc.getLast? :=
    Option.mem_def.mpr (List.getLast?_eq_getLast acc hacc_ne)
  have hcur_last : cur.1 = (acc.getLast hacc_ne).2 := hlast _ hgl_mem
  have hlast_get : acc.getLast hacc_ne = acc.get ⟨acc.length - 1, by omega⟩ :=
    List.getLast_eq_get acc hacc_ne
  have hj0 : j = 0 := by
    by_contra hjne
    obtain ⟨k, hk⟩ : ∃ k, j = k + 1 := ⟨j - 1, by omega⟩
    subst hk
    have hklt : k < acc.length - 1 := by omega
    have hchain_k := List.chain'_iff_get.mp hchain k hklt
    have hq1 : (acc.get ⟨k, by omega⟩).2 = cur.1 :=
      Eq.trans hchain_k (congrArg Prod.fst hget)
    have hq2 : (acc.get ⟨k, by omega⟩).2 = (acc.get ⟨acc.length - 1, by omega⟩).2 :=
      Eq.trans hq1 (Eq.trans hcur_last (congrArg Prod.snd hlast_get))
    have heq : acc.get ⟨k, by omega⟩ = acc.get ⟨acc.length - 1, by omega⟩ :=
      hinj (hsub _ (acc.get_mem _ _)) (hsub _ (acc.get_mem _ _)) hq2
    have hidx := (List.Nodup.get_inj_iff hnd).mp heq
    have hkv : k = acc.length - 1 := congrArg Fin.val hidx
    omega
  subst hj0
  cases acc with
  | nil => cases hmem
  | cons a as =>
    have ha : a = cur := hget
    rw [← ha]
    exact rfl

lemma closed_of_mem {l acc : List (α × α)} {cur : α × α}
    (hinj : ∀ ⦃x⦄, x ∈ l → ∀ ⦃y⦄, y ∈ l → x.2 = y.2 → x = y)
    (hsub : ∀ e ∈ acc, e ∈ l)
    (hchain : List.Chain' (fun a b => a.2 = b.1) acc)
    (hlast : ∀ x ∈ acc.getLast?, cur.1 = x.2)
    (hnd : acc.Nodup) (hmem : cur ∈ acc) :
    isClosedWalk acc := by
  have hacc_ne : acc ≠ [] := List.ne_nil_of_mem hmem
  have hhead := head_of_mem_closes hinj hsub hchain hlast hnd hmem
  refine ⟨hacc_ne, hchain, ?_⟩
  rw [hhead]
  rw [List.getLast?_eq_getLast acc hacc_ne]
  have := hlast (acc.getLast hacc_ne) (by rw [List.getLast?_eq_getLast acc hacc_ne]; rfl)
  simp [← this]

lemma sortLoop_succ (l : List (α × α)) (fuel : ℕ) (acc : List (α × α)) (cur : α × α) :
    sortLoop l (fuel + 1) acc cur =
      if cur ∈ acc then acc
      else
        match lookupSeg l cur.2 with
        | none => acc ++ [cur]
        | some next =>
          if (acc ++ [cur]).head? = some next ∧ (acc ++ [cur]).length = l.length then
            acc ++ [cur]
          else sortLoop l fuel (acc ++ [cur]) next := rfl

lemma sortLoop_closed (l : List (α × α))
    (hinj : ∀ ⦃x⦄, x ∈ l → ∀ ⦃y⦄, y ∈ l → x.2 = y.2 → x = y)
    (hbal : ∀ e ∈ l, ∃ f ∈ l, f.1 = e.2)
    (hne : l ≠ []) :
    ∀ fuel acc cur, SortInv l acc cur fuel →
      isClosedWalk (sortLoop l fuel acc cur) := by
  intro fuel
  induction fuel with
  | zero =>
    intro acc cur hinv
    obtain ⟨hsub, hcur, hchain, hlast, hnd, hlen⟩ := hinv
    -- the accumulator exhausted the segment list, so the cursor is in it
    have hsubf : acc.toFinset ⊆ l.toFinset := by
      intro x hx
      exact List.mem_toFinset.mpr (hsub x (List.mem_toFinset.mp hx))
    have hcard : l.toFinset.card ≤ acc.toFinset.card := by
      rw [List.toFinset_card_of_nodup hnd]
      calc l.toFinset.card ≤ l.length := List.toFinset_card_le l
        _ = acc.length := by omega
    have hfeq : acc.toFinset = l.toFinset := Finset.eq_of_subset_of_card_le hsubf hcard
    have hmem : cur ∈ acc := by
      have : cur ∈ acc.toFinset := hfeq ▸ List.mem_toFinset.mpr hcur
      exact List.mem_toFinset.mp this
    exact closed_of_mem hinj hsub hchain hlast hnd hmem
  | succ fuel ih =>
    intro acc cur hinv
    obtain ⟨hsub, hcur, hchain, hlast, hnd, hlen⟩ := hinv
    by_cases hmem : cur ∈ acc
    · have hred : sortLoop l (fuel + 1) acc cur = acc := by
        rw [sortLoop_succ]
        exact if_pos hmem
      rw [hred]
      exact closed_of_mem hinj hsub hchain hlast hnd hmem
    · have hsub' : ∀ e ∈ acc ++ [cur], e ∈ l := by
        intro e he
        rcases List.mem_append.mp he with he | he
        · exact hsub e he
        · simp at he; subst he; exact hcur
      have hchain' : List.Chain' (fun a b => a.2 = b.1) (acc ++ [cur]) := by
        rw [List.chain'_append]
        refine ⟨hchain, List.chain'_singleton cur, ?_⟩
        intro x hx y hy
        simp at hy
        subst hy
        exact (hlast x hx).symm
      have hnd' : (acc ++ [cur]).Nodup := by
        rw [List.nodup_append]
        exact ⟨hnd, List.nodup_singleton cur, by simpa using hmem⟩
      have hglast : (acc ++ [cur]).getLast? = some cur := List.getLast?_concat acc
      cases hfind : lookupSeg l cur.2 with
      | none =>
        exfalso
        obtain ⟨f, hf, hf1⟩ := hbal cur hcur
        have := lookupSeg_isSome (l := l) (s := cur.2) ⟨f, hf, hf1⟩
        rw [hfind] at this
        simp at this
      | some next =>
        obtain ⟨hnext_mem, hnext1⟩ := lookupSeg_eq_some hfind
        by_cases hcond :
            (acc ++ [cur]).head? = some next ∧ (acc ++ [cur]).length = l.length
        · have hred : sortLoop l (fuel + 1) acc cur = acc ++ [cur] := by
            rw [sortLoop_succ, if_neg hmem, hfind]
            exact if_pos hcond
          rw [hred]
          refine ⟨by simp, hchain', ?_⟩
          rw [hglast, hcond.1]
          simp [hnext1]
        · have hred : sortLoop l (fuel + 1) acc cur =
              sortLoop l fuel (acc ++ [cur]) next := by
            rw [sortLoop_succ, if_neg hmem, hfind]
            exact if_neg hcond
          rw [hred]
          apply ih
          refine ⟨hsub', hnext_mem, hchain', ?_, hnd', ?_⟩
          · intro x hx
            rw [hglast] at hx
            simp at hx
            subst hx
            exact hnext1
          · simp
            omega

lemma sortList_closed (required : List α) (l : List (α × α))
    (hinj : ∀ ⦃x⦄, x ∈ l → ∀ ⦃y⦄, y ∈ l → x.2 = y.2 → x = y)
    (hbal : ∀ e ∈ l, ∃ f ∈ l, f.1 = e.2)
    (hne : l ≠ []) :
    isClosedWalk (sortList required l) := by
  cases l with
  | nil => exact absurd rfl hne
  | cons e0 rest =>
    have hstart : (lookupSeg (e0 :: rest) (chooseStart required (e0 :: rest) e0)).isSome := by
      unfold chooseStart
      cases hreq : (required.find? (fun c => (lookupSeg (e0 :: rest) c).isSome)) with
      | some c =>
        show (lookupSeg (e0 :: rest) c).isSome = true
        simpa using List.find?_some hreq
      | none =>
        cases hts : ((e0 :: rest).find?
            (fun e => decide (e.1 ∉ (e0 :: rest).map Prod.snd))) with
        | some e =>
          show (lookupSeg (e0 :: rest) e.1).isSome = true
          exact lookupSeg_isSome ⟨e, List.mem_of_find?_eq_some hts, rfl⟩
        | none =>
          show (lookupSeg (e0 :: rest) e0.1).isSome = true
          exact lookupSeg_isSome ⟨e0, by simp, rfl⟩
    obtain ⟨c, hc⟩ := Option.isSome_iff_exists.mp hstart
    have hred : sortList required (e0 :: rest)
        = sortLoop (e0 :: rest) (e0 :: rest).length [] c := by
      have h1 : sortList required (e0 :: rest)
          = sortListAux (e0 :: rest)
              (lookupSeg (e0 :: rest) (chooseStart required (e0 :: rest) e0)) := rfl
      rw [h1, hc]
      rfl
    rw [hred]
    apply sortLoop_closed (e0 :: rest) hinj hbal hne
    refine ⟨by simp, (lookupSeg_eq_some hc).1, List.chain'_nil, by simp, List.nodup_nil, by simp⟩

/-- C2.  For any selection of segments satisfying the solver's constraints —
pairwise-distinct starts (at most one out-edge per node), pairwise-distinct
ends (at most one in-edge per node) and flow balance (every end is some
segment's start) — whenever `have_opportunity` holds for the path
reconstructed by `_sort_list` and the stored objective `exp(v) - 1`, the
reconstructed path is a closed head-to-tail walk (last node equals first
node) and the aggregate profit factor `exp(v)` exceeds 1. -/
theorem have_opportunity_only_valid_cycle
    (l : List (α × α)) (required : List α) (v : ℝ)
    (hout : (l.map Prod.fst).Nodup)
    (hin : (l.map Prod.snd).Nodup)
    (hbal : ∀ e ∈ l, ∃ f ∈ l, f.1 = e.2)
    (hopp : have_opportunity (sortList required l) (profitFactor v)) :
    isClosedWalk (sortList required l) ∧ 1 < Real.exp v := by
  have hne : l ≠ [] := by
    intro h
    subst h
    exact hopp.1 rfl
  refine ⟨sortList_closed required l (List.inj_on_of_nodup_map hin) hbal hne, ?_⟩
  have h2 := hopp.2
  unfold profitFactor at h2
  linarith

/-- Concrete 2-segment cycle used to witness C2. -/
def c2Edges : List (ℕ × ℕ) := [(0, 1), (1, 0)]

/-- Witness for C2 at a concrete two-edge cycle with objective value 1. -/
theorem have_opportunity_only_valid_cycle_witness :
    ((c2Edges.map Prod.fst).Nodup ∧ (c2Edges.map Prod.snd).Nodup ∧
     (∀ e ∈ c2Edges, ∃ f ∈ c2Edges, f.1 = e.2) ∧
     have_opportunity (sortList ([] : List ℕ) c2Edges) (profitFactor 1)) ∧
    (isClosedWalk (sortList ([] : List ℕ) c2Edges) ∧ 1 < Real.exp 1) := by
  have h1 : (c2Edges.map Prod.fst).Nodup := by decide
  have h2 : (c2Edges.map Prod.snd).Nodup := by decide
  have h3 : ∀ e ∈ c2Edges, ∃ f ∈ c2Edges, f.1 = e.2 := by decide
  have hexp : (1 : ℝ) < Real.exp 1 := by
    have h := Real.exp_lt_exp.mpr (zero_lt_one : (0 : ℝ) < 1)
    rwa [Real.exp_zero] at h
  have h4 : have_opportunity (sortList ([] : List ℕ) c2Edges) (profitFactor 1) := by
    refine ⟨by decide, ?_⟩
    unfold profitFactor
    linarith
  exact ⟨⟨h1, h2, h3, h4⟩, have_opportunity_only_valid_cycle c2Edges [] 1 h1 h2 h3 h4⟩

/-- The flags recording which data-refresh operations one call of
`find_arbitrage` performs, as a function of the iteration counter
`run_times` and the configured `refresh_time` (path_optimizer.py lines
99-107: the withdrawal-fee, reference-price and commission updates run only
inside the `run_times % refresh_time == 0` block, while `update_objectives`,
lines 399-407, refreshes balances, the conversion-rate matrix and the volume
matrix on every call). -/
structure RefreshFlags where
  withdrawalFee : Bool
  refCoinPrice : Bool
  commission : Bool
  balance : Bool
  transitPrice : Bool
  volMatrix : Bool
deriving DecidableEq

/-- The refresh schedule of one `find_arbitrage` iteration. -/
def findArbitrageRefresh (runTimes refreshTime : ℕ) : RefreshFlags :=
  let periodic := runTimes % refreshTime == 0
  { withdrawalFee := periodic
    refCoinPrice := periodic
    commission := periodic
    balance := true
    transitPrice := true
    volMatrix := true }

/-- C4 counterexample: at iteration `run_times = 1` with the default
`refresh_time = 1000`, `find_arbitrage` refreshes the conversion-rate and
volume matrices but not the commission matrix, refuting the claim that the
commission matrix is refreshed every iteration. -/
theorem refresh_cadence_counterexample :
    (findArbitrageRefresh 1 1000).transitPrice = true ∧
    (findArbitrageRefresh 1 1000).volMatrix = true ∧
    (findArbitrageRefresh 1 1000).commission = false := by
  exact ⟨rfl, rfl, rfl⟩

/-- C4 (amended).  Within each `find_arbitrage` iteration the
conversion-rate matrix, the volume matrix and the balances are refreshed
every iteration, while withdrawal-fee quotes, reference coin prices and the
commission matrix are refreshed only when `run_times` is a multiple of the
configured `refresh_time`. -/
theorem refresh_cadence (runTimes refreshTime : ℕ) :
    (findArbitrageRefresh runTimes refreshTime).transitPrice = true ∧
    (findArbitrageRefresh runTimes refreshTime).volMatrix = true ∧
    (findArbitrageRefresh runTimes refreshTime).balance = true ∧
    ((findArbitrageRefresh runTimes refreshTime).withdrawalFee = true ↔
      runTimes % refreshTime = 0) ∧
    ((findArbitrageRefresh runTimes refreshTime).commission = true ↔
      runTimes % refreshTime = 0) ∧
    ((findArbitrageRefresh runTimes refreshTime).refCoinPrice = true ↔
      runTimes % refreshTime = 0) := by
  refine ⟨rfl, rfl, rfl, ?_, ?_, ?_⟩ <;>
    simp [findArbitrageRefresh]

/-- The state written by `find_arbitrage`: the stored profit rate
`self.obj`, the reconstructed path `self.path` and the iteration counter
`self.run_times`. -/
structure SolveState (α : Type) where
  obj : ℝ
  path : List (α × α)
  runTimes : ℕ

/-- The outcome handling of `find_arbitrage` (path_optimizer.py lines
108-145): `res = none` models a failed solve (infeasible, unbounded, solve
returning `None`, or an error extracting variable values); a successful
solve carries the selected edges and the objective value, from which the
path is rebuilt by `_sort_list` and the profit rate by `exp(objective) - 1`.
The function is total: no branch raises. -/
noncomputable def findArbitrageResult (required : List α)
    (st : SolveState α) (res : Option (List (α × α) × ℝ)) : SolveState α :=
  match res with
  | none => { obj := 0, path := [], runTimes := st.runTimes + 1 }
  | some (edges, v) =>
      { obj := profitFactor v
        path := sortList required edges
        runTimes := st.runTimes + 1 }

/-- C5.  Whenever the solver returns no solution, `find_arbitrage` sets the
path to the empty list and the objective to 0, reports no opportunity, and
still advances the iteration counter; the failure is handled totally (no
exception escapes). -/
theorem solve_failure_nonfatal (required : List α) (st : SolveState α) :
    findArbitrageResult required st none =
      { obj := 0, path := [], runTimes := st.runTimes + 1 } ∧
    ¬ have_opportunity (findArbitrageResult required st none).path
        (findArbitrageResult required st none).obj ∧
    (findArbitrageResult required st none).runTimes = st.runTimes + 1 := by
  refine ⟨rfl, ?_, rfl⟩
  intro h
  exact h.1 rfl

/-- The optimizer state touched by `update_changeable_constraint`
(path_optimizer.py lines 608-708): the current `required_currencies` list
and whether the model currently holds the changeable_currency_flow
constraint. -/
structure ChangeableState (β : Type) where
  required : List β
  hasConstraint : Bool
deriving DecidableEq

/-- The action one call of `update_changeable_constraint` takes on the
changeable_currency_flow constraint: left untouched, removed, or
removed-and-readded. -/
inductive CAction
  | noop
  | removed
  | replaced
deriving DecidableEq

/-- The preferred-start list computed by `update_changeable_constraint`
(path_optimizer.py lines 614-616): the balance entries whose USD balance is
at or above `min_trading_limit`, sorted by balance descending
(`sorted(..., key=lambda x: x[1], reverse=True)`). -/
def preferredPairs (minLimit : ℚ) (balances : List (α × ℚ)) : List (α × ℚ) :=
  (balances.filter (fun p => decide (minLimit ≤ p.2))).mergeSort
    (fun a b => decide (b.2 ≤ a.2))

/-- `new_required_currencies` (path_optimizer.py line 618): the names of the
preferred balance entries. -/
def computeRequired (minLimit : ℚ) (balances : List (α × ℚ)) : List α :=
  (preferredPairs minLimit balances).map Prod.fst

/-- `PathOptimizer.update_changeable_constraint` (path_optimizer.py lines
608-708).  `c2i` models `self.currency2index` (fixed after
`_run_time_init`), `varNonempty` models `len(self.var) > 0` (also fixed),
`balances` the USD balances of `self.balance_dict`.  Paths: an empty
preferred set removes any existing constraint; an unchanged set with the
constraint present does nothing; otherwise the constraint is removed and,
when some preferred node is indexed and variables exist, re-added. -/
def update_changeable_constraint (minLimit : ℚ) (c2i : α → Option ℕ)
    (varNonempty : Bool) (balances : List (α × ℚ)) (st : ChangeableState α) :
    ChangeableState α × CAction :=
  let newReq := computeRequired minLimit balances
  if newReq = [] then
    (⟨newReq, false⟩, if st.hasConstraint then CAction.removed else CAction.noop)
  else if newReq = st.required ∧ st.hasConstraint then
    (⟨newReq, true⟩, CAction.noop)
  else if newReq.filterMap c2i = [] then
    (⟨newReq, false⟩, if st.hasConstraint then CAction.removed else CAction.noop)
  else if varNonempty then
    (⟨newReq, true⟩, CAction.replaced)
  else
    (⟨newReq, false⟩, if st.hasConstraint then CAction.removed else CAction.noop)

/-- Invariant relating the stored `required_currencies` to the presence of
the changeable_currency_flow constraint; it holds for the initial state
(`required_currencies = []`, no constraint, set in `set_params`) and is
preserved by every call, since `currency2index` and the variable list are
fixed once `_run_time_init` has run. -/
def ChangeableInv (c2i : α → Option ℕ) (varNonempty : Bool)
    (st : ChangeableState α) : Prop :=
  st.hasConstraint = true ↔
    (st.required ≠ [] ∧ st.required.filterMap c2i ≠ [] ∧ varNonempty = true)

/-- C7.  Under the state invariant, one call of
`update_changeable_constraint` (1) stores exactly the nodes whose balance is
at or above the minimum tradable notional, ordered by balance descending;
(2) ends with no constraint when the preferred set is empty; (3) removes or
re-adds the constraint only when the preferred set actually changed; and
(4) preserves the invariant. -/
theorem update_changeable_constraint_spec (minLimit : ℚ) (c2i : α → Option ℕ)
    (varNonempty : Bool) (balances : List (α × ℚ)) (st : ChangeableState α)
    (hinv : ChangeableInv c2i varNonempty st) :
    ((update_changeable_constraint minLimit c2i varNonempty balances st).1.required
        = computeRequired minLimit balances) ∧
    List.Pairwise (fun a b : α × ℚ => b.2 ≤ a.2) (preferredPairs minLimit balances) ∧
    (∀ n : α, n ∈ computeRequired minLimit balances ↔
        ∃ b : ℚ, (n, b) ∈ balances ∧ minLimit ≤ b) ∧
    (computeRequired minLimit balances = [] →
        (update_changeable_constraint minLimit c2i varNonempty balances st).1.hasConstraint
          = false ∧
        (update_changeable_constraint minLimit c2i varNonempty balances st).2
          ≠ CAction.replaced) ∧
    ((update_changeable_constraint minLimit c2i varNonempty balances st).2
          = CAction.replaced →
        computeRequired minLimit balances ≠ st.required) ∧
    ChangeableInv c2i varNonempty
      (update_changeable_constraint minLimit c2i varNonempty balances st).1 := by
  have hpair : List.Pairwise (fun a b : α × ℚ => b.2 ≤ a.2)
      (preferredPairs minLimit balances) := by
    have htrans : ∀ a b c : α × ℚ,
        (fun a b : α × ℚ => decide (b.2 ≤ a.2)) a b = true →
        (fun a b : α × ℚ => decide (b.2 ≤ a.2)) b c = true →
        (fun a b : α × ℚ => decide (b.2 ≤ a.2)) a c = true := by
      intro a b c hab hbc
      simp only [decide_eq_true_eq] at hab hbc ⊢
      exact le_trans hbc hab
    have htotal : ∀ a b : α × ℚ,
        ((fun a b : α × ℚ => decide (b.2 ≤ a.2)) a b ||
         (fun a b : α × ℚ => decide (b.2 ≤ a.2)) b a) = true := by
      intro a b
      rcases le_total a.2 b.2 with h | h <;> simp [h]
    have h := List.sorted_mergeSort htrans htotal
      (balances.filter (fun p => decide (minLimit ≤ p.2)))
    exact h.imp (fun hx => of_decide_eq_true hx)
  have hmem : ∀ n : α, n ∈ computeRequired minLimit balances ↔
      ∃ b : ℚ, (n, b) ∈ balances ∧ minLimit ≤ b := by
    intro n
    simp only [computeRequired, preferredPairs, List.mem_map]
    constructor
    · rintro ⟨p, hp, rfl⟩
      have hp' : p ∈ balances.filter (fun q => decide (minLimit ≤ q.2)) :=
        (List.mergeSort_perm _ _).mem_iff.mp hp
      have hp'' := List.mem_filter.mp hp'
      exact ⟨p.2, hp''.1, of_decide_eq_true hp''.2⟩
    · rintro ⟨b, hb, hlim⟩
      refine ⟨(n, b), ?_, rfl⟩
      exact (List.mergeSort_perm _ _).mem_iff.mpr
        (List.mem_filter.mpr ⟨hb, decide_eq_true hlim⟩)
  by_cases h1 : computeRequired minLimit balances = []
  · have hu : update_changeable_constraint minLimit c2i varNonempty balances st
        = (⟨computeRequired minLimit balances, false⟩,
           if st.hasConstraint then CAction.removed else CAction.noop) := by
      simp only [update_changeable_constraint, if_pos h1]
    refine ⟨by rw [hu], hpair, hmem, ?_, ?_, ?_⟩
    · intro _
      refine ⟨by rw [hu], ?_⟩
      rw [hu]
      by_cases hc : st.hasConstraint = true <;> simp [hc]
    · intro habs
      rw [hu] at habs
      by_cases hc : st.hasConstraint = true <;> simp [hc] at habs
    · rw [hu]
      simp [ChangeableInv, h1]
  · by_cases h2 : computeRequired minLimit balances = st.required ∧ st.hasConstraint
    · have hu : update_changeable_constraint minLimit c2i varNonempty balances st
          = (⟨computeRequired minLimit balances, true⟩, CAction.noop) := by
        simp only [update_changeable_constraint, if_neg h1, if_pos h2]
      refine ⟨by rw [hu], hpair, hmem, fun habs => absurd habs h1, ?_, ?_⟩
      · intro habs
        rw [hu] at habs
        cases habs
      · rw [hu]
        have hc := hinv.mp h2.2
        simp only [ChangeableInv]
        constructor
        · intro _
          exact ⟨h1, by rw [h2.1]; exact hc.2.1, hc.2.2⟩
        · intro _
          trivial
    · by_cases h3 : (computeRequired minLimit balances).filterMap c2i = []
      · have hu : update_changeable_constraint minLimit c2i varNonempty balances st
            = (⟨computeRequired minLimit balances, false⟩,
               if st.hasConstraint then CAction.removed else CAction.noop) := by
          simp only [update_changeable_constraint, if_neg h1, if_neg h2, if_pos h3]
        refine ⟨by rw [hu], hpair, hmem, fun habs => absurd habs h1, ?_, ?_⟩
        · intro habs
          rw [hu] at habs
          by_cases hc : st.hasConstraint = true <;> simp [hc] at habs
        · rw [hu]
          simp [ChangeableInv, h3]
      · by_cases h4 : varNonempty = true
        · have hu : update_changeable_constraint minLimit c2i varNonempty balances st
              = (⟨computeRequired minLimit balances, true⟩, CAction.replaced) := by
            simp only [update_changeable_constraint, if_neg h1, if_neg h2, if_neg h3,
              if_pos h4]
          refine ⟨by rw [hu], hpair, hmem, fun habs => absurd habs h1, ?_, ?_⟩
          · intro _ hsame
            apply h2
            refine ⟨hsame, ?_⟩
            apply hinv.mpr
            refine ⟨?_, ?_, h4⟩
            · rw [← hsame]
              exact h1
            · rw [← hsame]
              exact h3
          · rw [hu]
            simp only [ChangeableInv]
            exact ⟨fun _ => ⟨h1, h3, h4⟩, fun _ => trivial⟩
        · have hu : update_changeable_constraint minLimit c2i varNonempty balances st
              = (⟨computeRequired minLimit balances, false⟩,
                 if st.hasConstraint then CAction.removed else CAction.noop) := by
            simp only [update_changeable_constraint, if_neg h1, if_neg h2, if_neg h3,
              if_neg h4]
          refine ⟨by rw [hu], hpair, hmem, fun habs => absurd habs h1, ?_, ?_⟩
          · intro habs
            rw [hu] at habs
            by_cases hc : st.hasConstraint = true <;> simp [hc] at habs
          · rw [hu]
            simp [ChangeableInv, h4]

/-- Concrete balance table used to witness C7. -/
def c7Balances : List (ℕ × ℚ) := [(1, 50), (2, 5), (3, 20)]

/-- Witness for C7: the initial state (`required_currencies = []`, no
constraint) satisfies the invariant, and the call stores the computed
preferred list. -/
theorem update_changeable_constraint_spec_witness :
    ChangeableInv (fun n : ℕ => some n) true ⟨[], false⟩ ∧
    ((update_changeable_constraint 10 (fun n : ℕ => some n) true c7Balances
        ⟨[], false⟩).1.required = computeRequired 10 c7Balances) := by
  have hinv : ChangeableInv (fun n : ℕ => some n) true (⟨[], false⟩ : ChangeableState ℕ) := by
    simp [ChangeableInv]
  exact ⟨hinv,
    (update_changeable_constraint_spec 10 (fun n : ℕ => some n) true c7Balances
      ⟨[], false⟩ hinv).1⟩

end PathOptimizer

namespace ArbitrageManager

/-- The lifecycle status strings of `ArbitrageRunner`
(arbitrage_manager.py). -/
inductive RStatus
  | idle
  | starting
  | running
  | foundOpportunity
  | runningNoOpportunity
  | stopping
  | stopped
  | error
  | executedTradeSimulation
  | opportunityNoWorkableSolution
deriving DecidableEq

/-- The parent-process state of `ArbitrageRunner` relevant to `start`/`stop`
(arbitrage_manager.py lines 33-39): the status string, whether
`self.process` is set and alive, the shared stop event, the error text and
the last recorded opportunity. -/
structure Runner where
  status : RStatus
  processExists : Bool
  processAlive : Bool
  stopEventSet : Bool
  errorMessage : Option String
  lastOpportunity : Option String
deriving DecidableEq

/-- The snapshot dictionary built by `ArbitrageRunner.get_status`
(arbitrage_manager.py lines 403-411). -/
structure StatusSnapshot where
  status : RStatus
  lastOpportunity : Option String
  errorMessage : Option String
  processAlive : Bool
deriving DecidableEq

/-- `ArbitrageRunner.start` (arbitrage_manager.py lines 348-361).  The
second component is the method's Python return value: both the rejection
path (`return` with no expression, line 351) and the success path (falling
off the end) return `None`. -/
def start (r : Runner) : Runner × Option StatusSnapshot :=
  if r.status = RStatus.running ∨ (r.processExists ∧ r.processAlive) then
    (r, none)
  else
    ({ status := RStatus.starting
       processExists := true
       processAlive := true
       stopEventSet := false
       errorMessage := none
       lastOpportunity := none }, none)

/-- `ArbitrageRunner.stop` (arbitrage_manager.py lines 364-389).  With no
live worker: the status is forced to stopped unless it already is stopped,
error or idle, and the method returns `None` (line 369).  With a live
worker: the parent sets the status to stopping, sets the stop event, joins
(terminating on timeout), and — since the parent's own status is never
`error` at that point — ends at stopped with `self.process = None`; the
method again returns `None`. -/
def stop (r : Runner) : Runner × Option StatusSnapshot :=
  if r.processExists ∧ r.processAlive then
    ({ r with
        status := RStatus.stopped
        stopEventSet := true
        processExists := false
        processAlive := false }, none)
  else if r.status = RStatus.stopped ∨ r.status = RStatus.error ∨
      r.status = RStatus.idle then
    (r, none)
  else
    ({ r with status := RStatus.stopped }, none)

/-- The freshly constructed runner (arbitrage_manager.py lines 33-39):
status idle, no worker process, clear stop event, empty error, no
opportunity. -/
def initialRunner : Runner :=
  { status := RStatus.idle
    processExists := false
    processAlive := false
    stopEventSet := false
    errorMessage := none
    lastOpportunity := none }

/-- C6 counterexample: called on the freshly constructed runner, both
`start()` and `stop()` return `None`, not a status snapshot — refuting the
claim that both calls return the post-call status snapshot and never return
nothing. -/
theorem start_stop_counterexample :
    (start initialRunner).2 = none ∧ (stop initialRunner).2 = none :=
  ⟨rfl, rfl⟩

/-- C6 (amended).  `start()` and `stop()` always return `None` (the status
snapshot is available only through `get_status()`); still, neither leaves
the runner's state undefined: `start` either rejects the call leaving the
state unchanged or transitions to `starting`, and `stop` always leaves the
status in one of stopped, error or idle. -/
theorem start_stop_return_none (r : Runner) :
    (start r).2 = none ∧ (stop r).2 = none ∧
    ((start r).1 = r ∨ (start r).1.status = RStatus.starting) ∧
    ((stop r).1.status = RStatus.stopped ∨ (stop r).1.status = RStatus.error ∨
      (stop r).1.status = RStatus.idle) := by
  refine ⟨?_, ?_, ?_, ?_⟩
  · unfold start
    split <;> rfl
  · unfold stop
    split
    · rfl
    · split <;> rfl
  · unfold start
    split
    · exact Or.inl rfl
    · exact Or.inr rfl
  · unfold stop
    split
    · exact Or.inl rfl
    · split
      · next h => exact h
      · exact Or.inl rfl

/-- The fields of `ArbitrageRunner` that `run_main_loop` mutates and
`get_status` reports: the status string, the error text and the last
opportunity. -/
structure WorkerView where
  status : RStatus
  errorMessage : Option String
  lastOpportunity : Option String
deriving DecidableEq

/-- The two operating-system processes involved after `start()`:
`multiprocessing.Process(target=self.run_main_loop)` (line 359) gives the
worker its own copy of the runner's attributes; only `self.stop_event`, a
`multiprocessing.Event` (line 34), lives in shared memory. -/
structure ProcWorld where
  parent : WorkerView
  child : Option WorkerView
  stopEventSet : Bool
deriving DecidableEq

/-- `self.process.start()` (line 360): the worker process starts with a
copy of the parent's attributes. -/
def spawnWorker (w : ProcWorld) : ProcWorld :=
  { w with child := some w.parent }

/-- An attribute update performed inside `run_main_loop`
(arbitrage_manager.py lines 235-345), e.g. `self.status =
"found_opportunity"`, `self.error_message = ...`, `self.last_opportunity =
...`: the assignment executes in the worker process and therefore mutates
only the worker's copy of the runner. -/
def workerUpdate (s : RStatus) (e lo : Option String) (w : ProcWorld) : ProcWorld :=
  { w with child := w.child.map (fun _ => ⟨s, e, lo⟩) }

/-- The status/error/opportunity fields reported by `get_status`
(arbitrage_manager.py lines 392-411): the method runs in the parent process
and reads the parent's copies of `self.status`, `self.error_message` and
`self.last_opportunity`. -/
def getStatusView (w : ProcWorld) : WorkerView :=
  w.parent

/-- C9.  The updates `run_main_loop` makes to the status string, the error
text and the last opportunity are never observable through a subsequent
`get_status()` in the parent process: `status`, `error_message` and
`last_opportunity` are plain attributes copied into the worker at process
start (only `stop_event` is a shared `multiprocessing` handle), so the
parent's `get_status` result is invariant under any worker-side update —
even though the update genuinely lands in the worker's copy. -/
theorem worker_updates_invisible_to_get_status
    (w : ProcWorld) (s : RStatus) (e lo : Option String) :
    getStatusView (workerUpdate s e lo (spawnWorker w))
      = getStatusView (spawnWorker w) ∧
    (workerUpdate s e lo (spawnWorker w)).child = some ⟨s, e, lo⟩ :=
  ⟨rfl, rfl⟩

/-- The optimizer-parameter fields accepted by
`ArbitrageRunner.set_optimizer_parameters` (arbitrage_manager.py lines
128-177). -/
inductive PField
  | path_length
  | simulated_bal
  | interex_trading_size
  | min_trading_limit
  | orderbook_n
  | include_fiat
  | inter_exchange_trading
  | consider_init_bal
  | consider_inter_exc_bal
deriving DecidableEq

/-- An optimizer-parameter value after conversion: Python `int`, `float`
(modelled by ℚ), `bool`, the parsed simulated-balance dict
(exchange name → coin name → amount) or `None`, or — see `getTypedParam` —
a well-formed but non-dict JSON value stored as-is into `simulated_bal`. -/
inductive PValue
  | int (z : ℤ)
  | num (q : ℚ)
  | flag (b : Bool)
  | simBal (d : Option (List (String × List (String × ℚ))))
  | jsonNonDict
deriving DecidableEq

/-- The result of `json.loads` as far as `set_optimizer_parameters`
inspects it: a JSON object (used as the simulated-balance dict), JSON
`null` (Python `None`), or any other JSON value (a list, number, string or
boolean). -/
inductive JsonValue
  | dict (d : List (String × List (String × ℚ)))
  | null
  | nonDict
deriving DecidableEq

/-- The constructor defaults of `ArbitrageRunner.__init__`
(arbitrage_manager.py lines 22-30 and 61-71). -/
def defaults : PField → PValue
  | .path_length => .int 6
  | .simulated_bal => .simBal none
  | .interex_trading_size => .num 2000
  | .min_trading_limit => .num 10
  | .orderbook_n => .int 20
  | .include_fiat => .flag false
  | .inter_exchange_trading => .flag true
  | .consider_init_bal => .flag true
  | .consider_inter_exc_bal => .flag true

/-- Python `str.lower()` restricted to what the embedding needs. -/
def strLower (s : String) : String :=
  String.mk (s.data.map Char.toLower)

/-- Python `not val_str or not val_str.strip()`: the string is empty or
whitespace-only. -/
def isBlank (s : String) : Bool :=
  s.data.all Char.isWhitespace

/-- The `_get_typed_param` helper of `set_optimizer_parameters`
(arbitrage_manager.py lines 134-164), applied to a string-valued override
(the values arriving from the web form), parameterised by the Python
primitives `int(...)`, `float(...)` and `json.loads(...)`, each returning
`none` on the exception the helper catches (`ValueError`,
`json.JSONDecodeError`).  An absent key yields the default; an empty
numeric string yields the default; a failed numeric parse yields the
default; the JSON field falls back to the default on blank input or on
`json.loads` failure, while a well-formed non-dict JSON value is returned
as-is and stored into `simulated_bal` — the `isinstance(parsed_val, dict)`
guard (line 143) is dead code, since it tests `key == 'simulated_bal'` but
the caller passes the key `'simulated_bal_json'` (line 167); a boolean
field accepts case-insensitive "true"/"false", maps the empty string to the
default, and otherwise applies Python `bool(...)` truthiness, i.e. any
other nonempty string becomes `True`. -/
def getTypedParam (pint : String → Option ℤ) (pnum : String → Option ℚ)
    (pjson : String → Option JsonValue) (f : PField) (v : Option String) : PValue :=
  match v with
  | none => defaults f
  | some s =>
    match f with
    | .path_length | .orderbook_n =>
      if s = "" then defaults f
      else
        match pint s with
        | some z => .int z
        | none => defaults f
    | .interex_trading_size | .min_trading_limit =>
      if s = "" then defaults f
      else
        match pnum s with
        | some q => .num q
        | none => defaults f
    | .simulated_bal =>
      if isBlank s then defaults f
      else
        match pjson s with
        | some (.dict d) => .simBal (some d)
        | some .null => .simBal none
        | some .nonDict => .jsonNonDict
        | none => defaults f
    | _ =>
      if strLower s = "true" then .flag true
      else if strLower s = "false" then .flag false
      else if s = "" then defaults f
      else .flag true

/-- `ArbitrageRunner.set_optimizer_parameters` (arbitrage_manager.py lines
128-177): resets the active parameters to the defaults, then sets every
field from the override map through `_get_typed_param`. -/
def set_optimizer_parameters (pint : String → Option ℤ) (pnum : String → Option ℚ)
    (pjson : String → Option JsonValue) (ov : PField → Option String) :
    PField → PValue :=
  fun f => getTypedParam pint pnum pjson f (ov f)

/-- Override map sending only `include_fiat`, to the malformed boolean
string "banana". -/
def badBoolOverride : PField → Option String :=
  fun f => match f with
    | .include_fiat => some "banana"
    | _ => none

/-- Override map sending only the simulated balances, to the well-formed
but non-dict JSON text "[1, 2]". -/
def badJsonOverride : PField → Option String :=
  fun f => match f with
    | .simulated_bal => some "[1, 2]"
    | _ => none

/-- C8 counterexample, two independent refutations of per-field fallback:
(a) the malformed boolean override "banana" for `include_fiat` does not
fall back to the field's default `False` — Python truthiness coerces it to
`True` (`return target_type(val_str) if val_str else default_val` with
`target_type = bool`, line 157); (b) the well-formed non-dict JSON override
"[1, 2]" for the simulated balances does not fall back to the default
either — it is stored as-is, because the `isinstance(parsed_val, dict)`
guard (line 143) tests `key == 'simulated_bal'` while the caller passes
`'simulated_bal_json'` (line 167), so the guard never fires.  The second
parser argument models `json.loads("[1, 2]")` returning a list. -/
theorem set_optimizer_parameters_counterexample :
    (set_optimizer_parameters (fun _ => none) (fun _ => none) (fun _ => none)
        badBoolOverride PField.include_fiat = PValue.flag true ∧
     defaults PField.include_fiat = PValue.flag false) ∧
    (set_optimizer_parameters (fun _ => none) (fun _ => none)
        (fun _ => some JsonValue.nonDict) badJsonOverride PField.simulated_bal
        = PValue.jsonNonDict ∧
     defaults PField.simulated_bal = PValue.simBal none ∧
     PValue.jsonNonDict ≠ PValue.simBal none) := by
  exact ⟨⟨rfl, rfl⟩, rfl, rfl, by decide⟩

/-- C8 (amended).  Each override field is validated independently of the
others, and the call is a total function (it never throws for string-valued
overrides): overriding one field never changes another field's result; a
nonempty non-numeric string for the float-typed `min_trading_limit` falls
back to that field's default; JSON for the simulated balances that fails to
parse (a `json.JSONDecodeError`) falls back to that field's default.  Two
kinds of malformed input do not fall back, however: boolean fields coerce
any nonempty string other than "true"/"false" to `True` rather than to the
default, and well-formed non-dict JSON for the simulated balances is stored
as-is, since the `isinstance(..., dict)` guard checks the wrong key and is
dead code — see the counterexample for both. -/
theorem set_optimizer_parameters_field_isolation
    (pint : String → Option ℤ) (pnum : String → Option ℚ)
    (pjson : String → Option JsonValue) (ov : PField → Option String) :
    (∀ f g : PField, ∀ s : Option String, f ≠ g →
      set_optimizer_parameters pint pnum pjson
          (fun x => if x = g then s else ov x) f
        = set_optimizer_parameters pint pnum pjson ov f) ∧
    (∀ s : String, ov PField.min_trading_limit = some s → s ≠ "" →
      pnum s = none →
      set_optimizer_parameters pint pnum pjson ov PField.min_trading_limit
        = defaults PField.min_trading_limit) ∧
    (∀ s : String, ov PField.simulated_bal = some s → pjson s = none →
      set_optimizer_parameters pint pnum pjson ov PField.simulated_bal
        = defaults PField.simulated_bal) ∧
    (∀ s : String, ov PField.simulated_bal = some s → isBlank s = false →
      pjson s = some JsonValue.nonDict →
      set_optimizer_parameters pint pnum pjson ov PField.simulated_bal
        = PValue.jsonNonDict) := by
  refine ⟨?_, ?_, ?_, ?_⟩
  · intro f g s hne
    show getTypedParam pint pnum pjson f (if f = g then s else ov f)
      = getTypedParam pint pnum pjson f (ov f)
    rw [if_neg hne]
  · intro s hov hsne hparse
    show getTypedParam pint pnum pjson PField.min_trading_limit
        (ov PField.min_trading_limit) = defaults PField.min_trading_limit
    rw [hov]
    show (if s = "" then defaults PField.min_trading_limit
      else
        match pnum s with
        | some q => PValue.num q
        | none => defaults PField.min_trading_limit)
      = defaults PField.min_trading_limit
    rw [if_neg hsne, hparse]
  · intro s hov hparse
    show getTypedParam pint pnum pjson PField.simulated_bal
        (ov PField.simulated_bal) = defaults PField.simulated_bal
    rw [hov]
    show (if isBlank s then defaults PField.simulated_bal
      else
        match pjson s with
        | some (.dict d) => PValue.simBal (some d)
        | some .null => PValue.simBal none
        | some .nonDict => PValue.jsonNonDict
        | none => defaults PField.simulated_bal)
      = defaults PField.simulated_bal
    by_cases hb : isBlank s = true
    · rw [if_pos hb]
    · rw [if_neg hb, hparse]
  · intro s hov hblank hparse
    show getTypedParam pint pnum pjson PField.simulated_bal
        (ov PField.simulated_bal) = PValue.jsonNonDict
    rw [hov]
    show (if isBlank s then defaults PField.simulated_bal
      else
        match pjson s with
        | some (.dict d) => PValue.simBal (some d)
        | some .null => PValue.simBal none
        | some .nonDict => PValue.jsonNonDict
        | none => defaults PField.simulated_bal)
      = PValue.jsonNonDict
    rw [if_neg (by simp [hblank]), hparse]

/-- Override map used by the C8 witness: a malformed numeric trading size
together with an untouched boolean field. -/
def c8Override : PField → Option String :=
  fun f => match f with
    | .min_trading_limit => some "abc"
    | _ => none

/-- Witness for C8's amended theorem: overriding `min_trading_limit` leaves
`include_fiat` untouched, the malformed numeric value "abc" falls back to
the default, and the non-dict JSON override "[1, 2]" is stored as-is. -/
theorem set_optimizer_parameters_field_isolation_witness :
    (PField.include_fiat ≠ PField.min_trading_limit ∧
     c8Override PField.min_trading_limit = some "abc" ∧ "abc" ≠ "" ∧
     (fun _ : String => (none : Option ℚ)) "abc" = none ∧
     badJsonOverride PField.simulated_bal = some "[1, 2]" ∧
     isBlank "[1, 2]" = false ∧
     (fun _ : String => some JsonValue.nonDict) "[1, 2]" = some JsonValue.nonDict) ∧
    (set_optimizer_parameters (fun _ => none) (fun _ => none) (fun _ => none)
        (fun x => if x = PField.min_trading_limit then some "7" else c8Override x)
        PField.include_fiat
      = set_optimizer_parameters (fun _ => none) (fun _ => none) (fun _ => none)
          c8Override PField.include_fiat ∧
     set_optimizer_parameters (fun _ => none) (fun _ => none) (fun _ => none)
        c8Override PField.min_trading_limit
      = defaults PField.min_trading_limit ∧
     set_optimizer_parameters (fun _ => none) (fun _ => none)
        (fun _ => some JsonValue.nonDict) badJsonOverride PField.simulated_bal
      = PValue.jsonNonDict) := by
  have h := set_optimizer_parameters_field_isolation
    (fun _ => none) (fun _ => none) (fun _ => none) c8Override
  have hj := set_optimizer_parameters_field_isolation
    (fun _ => none) (fun _ => none) (fun _ => some JsonValue.nonDict) badJsonOverride
  refine ⟨⟨by decide, rfl, by decide, rfl, rfl, by decide, rfl⟩, ?_, ?_, ?_⟩
  · exact h.1 PField.include_fiat PField.min_trading_limit (some "7") (by decide)
  · exact h.2.1 "abc" rfl (by decide) rfl
  · exact hj.2.2.2 "[1, 2]" rfl (by decide) rfl

end ArbitrageManager

namespace Utils

/-- One worker of `multiThread` (`eachThread`, utils.py lines 184-197): it
processes its assigned (original-index, item) pairs in order, recording for
every single item either the function result or `None` when the call raised
(fallible work is modelled by `func` returning an `Option`). -/
def eachThread {A B : Type} (func : A → Option B) (items : List (ℕ × A)) :
    List (ℕ × Option B) :=
  items.map (fun p => (p.1, func p.2))

/-- The slice of work assigned to worker `i` of `T` by `multiThread` and
`killable_multiThread` (utils.py lines 214 and 275:
`num = range(i, len(List), threadNum)`). -/
def assigned {A : Type} (T i : ℕ) (L : List A) : List (ℕ × A) :=
  L.enum.filter (fun p => decide (p.1 % T = i))

/-- `multiThread` (utils.py lines 200-229): an empty input yields an empty
result, a non-positive thread count is clamped to one, the workers' outputs
are pooled and sorted back into original-index order, and the indices are
projected away. -/
def multiThread {A B : Type} (func : A → Option B) (L : List A)
    (threadNum : ℕ) : List (Option B) :=
  if L.isEmpty then []
  else
    let T := if threadNum = 0 then 1 else threadNum
    let entries :=
      ((List.range T).map (fun i => eachThread func (assigned T i L))).flatten
    (entries.mergeSort (fun a b => decide (a.1 ≤ b.1))).map Prod.snd

/-- One worker of `killable_multiThread` (`killable_eachThread`, utils.py
lines 232-256).  The shared `threading.Event` is modelled by a boolean
threaded through `func`, which receives the event state and may set (or
clear) it.  When the event is set before an item, the item is recorded as
`(index, None)` and the loop continues; when the worker observes the event
set right after completing an item, it breaks out of the loop recording
nothing — not even `None` — for its remaining assigned items. -/
def killable_eachThread {A B : Type} (func : A → Bool → Option B × Bool) :
    List (ℕ × A) → Bool → List (ℕ × Option B) × Bool
  | [], ev => ([], ev)
  | (i, a) :: rest, ev =>
    if ev then
      let r := killable_eachThread func rest ev
      ((i, (none : Option B)) :: r.1, r.2)
    else
      let fr := func a ev
      if fr.2 then ([(i, fr.1)], fr.2)
      else
        let r := killable_eachThread func rest fr.2
        ((i, fr.1) :: r.1, r.2)

/-- `killable_multiThread` (utils.py lines 259-290), under the serialized
schedule in which the workers run to completion one after another while
sharing the stop event — one admissible interleaving of the threads. -/
def killable_multiThread {A B : Type} (func : A → Bool → Option B × Bool)
    (L : List A) (threadNum : ℕ) : List (Option B) :=
  if L.isEmpty then []
  else
    let T := if threadNum = 0 then 1 else threadNum
    let entries :=
      ((List.range T).foldl
        (fun acc i =>
          let r := killable_eachThread func (assigned T i L) acc.2
          (acc.1 ++ r.1, r.2))
        (([] : List (ℕ × Option B)), false)).1
    (entries.mergeSort (fun a b => decide (a.1 ≤ b.1))).map Prod.snd

lemma sum_map_add {I : Type} (l : List I) (f g : I → ℕ) :
    (l.map (fun i => f i + g i)).sum = (l.map f).sum + (l.map g).sum := by
  induction l with
  | nil => simp
  | cons x xs ih =>
    simp only [List.map_cons, List.sum_cons, ih]
    omega

lemma sum_indicator_zero (k T : ℕ) (h : T ≤ k) :
    ((List.range T).map (fun i => if k = i then 1 else 0)).sum = 0 := by
  induction T with
  | zero => simp
  | succ T ih =>
    rw [List.range_succ, List.map_append, List.sum_append]
    have h1 : k ≠ T := by omega
    simp [ih (by omega), h1]

lemma sum_indicator_one (k T : ℕ) (h : k < T) :
    ((List.range T).map (fun i => if k = i then 1 else 0)).sum = 1 := by
  induction T with
  | zero => omega
  | succ T ih =>
    rw [List.range_succ, List.map_append, List.sum_append]
    by_cases hk : k = T
    · subst hk
      simp [sum_indicator_zero k k le_rfl]
    · simp [hk, ih (by omega)]

/-- Partitioning indexed items into the `T` residue-class buckets used by
the thread pool preserves the total count. -/
lemma bucket_length_sum {A : Type} (T : ℕ) (hT : 0 < T) (es : List (ℕ × A)) :
    ((List.range T).map
      (fun i => ((es.filter (fun p => decide (p.1 % T = i))).length))).sum
      = es.length := by
  induction es with
  | nil => simp
  | cons p es ih =>
    have hsplit : ∀ i : ℕ,
        (((p :: es).filter (fun q => decide (q.1 % T = i))).length)
          = (if p.1 % T = i then 1 else 0)
            + ((es.filter (fun q => decide (q.1 % T = i))).length) := by
      intro i
      rw [List.filter_cons]
      by_cases h : p.1 % T = i <;> simp [h] <;> omega
    calc ((List.range T).map
          (fun i => (((p :: es).filter (fun q => decide (q.1 % T = i))).length))).sum
        = ((List.range T).map
          (fun i => (if p.1 % T = i then 1 else 0)
            + ((es.filter (fun q => decide (q.1 % T = i))).length))).sum := by
          congr 1
          exact List.map_congr_left (fun i _ => hsplit i)
      _ = ((List.range T).map (fun i => if p.1 % T = i then 1 else 0)).sum
          + ((List.range T).map
              (fun i => ((es.filter (fun q => decide (q.1 % T = i))).length))).sum :=
          sum_map_add _ _ _
      _ = 1 + es.length := by
          rw [sum_indicator_one (p.1 % T) T (Nat.mod_lt _ hT), ih]
      _ = (p :: es).length := by simp [Nat.add_comm]

/-- C10.  `multiThread` always returns exactly one result entry per input
item; `killable_multiThread`, by contrast, can return a list strictly
shorter than its input: with a worker function that sets the shared stop
event while processing the first item, the worker breaks out right after
recording that item and the second item receives no entry at all, so
callers cannot rely on one result per work item after an early stop. -/
theorem killable_multiThread_shorter_than_input :
    (∀ (A B : Type) (func : A → Option B) (L : List A) (T : ℕ),
        (multiThread func L T).length = L.length) ∧
    (∃ (func : ℕ → Bool → Option ℕ × Bool) (L : List ℕ) (T : ℕ),
        (killable_multiThread func L T).length < L.length) := by
  constructor
  · intro A B func L T
    by_cases hL : L.isEmpty = true
    · rw [multiThread, if_pos hL]
      rw [List.isEmpty_iff] at hL
      simp [hL]
    · rw [multiThread, if_neg hL]
      have hT : 0 < (if T = 0 then 1 else T) := by
        split
        · omega
        · omega
      rw [List.length_map, List.length_mergeSort, List.length_flatten, List.map_map]
      have hpt : ∀ i ∈ List.range (if T = 0 then 1 else T),
          (List.length ∘ fun i => eachThread func (assigned (if T = 0 then 1 else T) i L)) i
            = ((L.enum.filter
                (fun p => decide (p.1 % (if T = 0 then 1 else T) = i))).length) := by
        intro i _
        simp [eachThread, assigned]
      rw [List.map_congr_left hpt]
      rw [bucket_length_sum (if T = 0 then 1 else T) hT L.enum]
      exact List.enum_length
  · refine ⟨fun a _ => ((some a : Option ℕ), true), [0, 1], 1, ?_⟩
    have h : killable_multiThread (fun a _ => ((some a : Option ℕ), true)) [0, 1] 1
        = (([((0 : ℕ), (some 0 : Option ℕ))].mergeSort
            (fun a b => decide (a.1 ≤ b.1))).map Prod.snd) := rfl
    rw [h, List.length_map, List.length_mergeSort]
    decide

end Utils
